import Mathlib

/-!
Verification development for the adsorption-site generator
(`add_adsorbate.py`): a shallow embedding of the geometric pipeline
(slab alignment, percentile + convex-hull surface selection, top/bridge/hollow
site generation, adsorbate placement) together with theorems about it.

Conventions of the embedding:
* exact arithmetic replaces IEEE floats: the percentile / hull / site-generation
  stages, whose source uses only field operations and comparisons, are modelled
  over `ℚ` (executable and decidable); the alignment stage, whose source uses
  `arccos`, `cos`, `sin` and square roots, is modelled over `ℝ`;
* a comparison `‖v‖ ≤ t` on a Euclidean length is encoded rationally as
  `0 ≤ t ∧ ‖v‖² ≤ t²`, which is equivalent over the reals;
* exceptions raised by library calls (here: `np.percentile` on an out-of-range
  percentile) are modelled with `Except`.
-/

/- Batteries marks the `Rat` field operations `@[irreducible]`; restore
semireducibility so that concrete rational computations can be settled by
`decide`. -/
set_option allowUnsafeReducibility true in
attribute [semireducible] Rat.add Rat.mul Rat.sub Rat.inv Rat.div Rat.ofScientific

/- Likewise for `List.mergeSort` (sealed after its well-founded definition),
and decidable equality of `Except` results, so concrete pipeline runs can be
settled by `decide`. -/
set_option allowUnsafeReducibility true in
attribute [semireducible] List.mergeSort List.merge

deriving instance DecidableEq for Except

/-- A 3-component vector over a scalar type `α`, modelling the `numpy`
3-vectors used throughout the source. -/
structure Vec3 (α : Type) where
  x : α
  y : α
  z : α
deriving DecidableEq, Repr

namespace Vec3

variable {α : Type} [CommRing α]

instance : Add (Vec3 α) := ⟨fun a b => ⟨a.x + b.x, a.y + b.y, a.z + b.z⟩⟩

instance : Sub (Vec3 α) := ⟨fun a b => ⟨a.x - b.x, a.y - b.y, a.z - b.z⟩⟩

instance : Neg (Vec3 α) := ⟨fun a => ⟨-a.x, -a.y, -a.z⟩⟩

instance : SMul α (Vec3 α) := ⟨fun c a => ⟨c * a.x, c * a.y, c * a.z⟩⟩

instance : Zero (Vec3 α) := ⟨⟨0, 0, 0⟩⟩

@[simp] theorem add_def (a b : Vec3 α) : a + b = ⟨a.x + b.x, a.y + b.y, a.z + b.z⟩ := rfl

@[simp] theorem sub_def (a b : Vec3 α) : a - b = ⟨a.x - b.x, a.y - b.y, a.z - b.z⟩ := rfl

@[simp] theorem neg_def (a : Vec3 α) : -a = ⟨-a.x, -a.y, -a.z⟩ := rfl

@[simp] theorem smul_def (c : α) (a : Vec3 α) : c • a = ⟨c * a.x, c * a.y, c * a.z⟩ := rfl

@[simp] theorem zero_def : (0 : Vec3 α) = ⟨0, 0, 0⟩ := rfl

/-- Dot product, modelling `np.dot` on 3-vectors. -/
def dot (a b : Vec3 α) : α := a.x * b.x + a.y * b.y + a.z * b.z

/-- Cross product, modelling `np.cross` on 3-vectors. -/
def cross (a b : Vec3 α) : Vec3 α :=
  ⟨a.y * b.z - a.z * b.y, a.z * b.x - a.x * b.z, a.x * b.y - a.y * b.x⟩

/-- Squared Euclidean norm; `np.linalg.norm(v)` is `Real.sqrt (normSq v)`. -/
def normSq (a : Vec3 α) : α := a.x * a.x + a.y * a.y + a.z * a.z

/-- The unit vector `ẑ` (the `normal = np.array([0.0, 0.0, 1.0])` of the source). -/
def zhat : Vec3 α := ⟨0, 0, 1⟩

@[simp] theorem dot_def (a b : Vec3 α) : dot a b = a.x * b.x + a.y * b.y + a.z * b.z := rfl

@[simp] theorem normSq_def (a : Vec3 α) : normSq a = a.x * a.x + a.y * a.y + a.z * a.z := rfl

@[simp] theorem zhat_def : (zhat : Vec3 α) = ⟨0, 0, 1⟩ := rfl

end Vec3

/-- One atom of an `ase.Atoms` object: an element symbol and a Cartesian
position. -/
structure SlabAtom (α : Type) where
  el : String
  p : Vec3 α
deriving DecidableEq, Repr

/-- The slab data the pipeline reads and writes: the ordered atom list, the
3×3 cell matrix (as its three row vectors, `cell[0]`, `cell[1]`, `cell[2]`)
and the three periodicity flags.  Models the `ase.Atoms` value returned by
`ase.io.read`. -/
structure Slab (α : Type) where
  atoms : List (SlabAtom α)
  cell0 : Vec3 α
  cell1 : Vec3 α
  cell2 : Vec3 α
  pbc0 : Bool
  pbc1 : Bool
  pbc2 : Bool
deriving DecidableEq, Repr

namespace Slab

variable {α : Type} [CommRing α]

/-- `slab.get_positions()`: the list of atomic positions, in atom order. -/
def positions (s : Slab α) : List (Vec3 α) := s.atoms.map (·.p)

/-- `pos[i]` of the source; out-of-range indices (which would raise in Python
and never occur on the pipeline's own outputs) default to the origin. -/
def posD (s : Slab α) (i : ℕ) : Vec3 α := (s.positions).getD i 0

/-- `pos[:,2]` of the source: the list of z-coordinates, in atom order. -/
def zList (s : Slab α) : List α := s.positions.map (·.z)

end Slab

/-- Minimum-image displacement, modelling `ase.geometry.find_mic` for a single
vector: express `v` in fractional (scaled) coordinates of the cell, shift each
periodic axis' fractional component into `[-1/2, 1/2)` by subtracting
`⌊f + 1/2⌋`, and map back to Cartesian coordinates.  This is ASE's
`naive_find_mic` wrap, which is ASE's exact minimum image whenever the result
is shorter than half the smallest cell height (true for all orthorhombic-style
cells used below); for a singular cell the direct vector is returned
unchanged, matching ASE's rank-0 branch. -/
def find_mic (v : Vec3 ℚ) (c0 c1 c2 : Vec3 ℚ) (p0 p1 p2 : Bool) : Vec3 ℚ :=
  let det := Vec3.dot c0 (Vec3.cross c1 c2)
  if det = 0 then v
  else
    let f0 := Vec3.dot v (Vec3.cross c1 c2) / det
    let f1 := Vec3.dot v (Vec3.cross c2 c0) / det
    let f2 := Vec3.dot v (Vec3.cross c0 c1) / det
    let g0 := if p0 then f0 - ⌊f0 + 1/2⌋ else f0
    let g1 := if p1 then f1 - ⌊f1 + 1/2⌋ else f1
    let g2 := if p2 then f2 - ⌊f2 + 1/2⌋ else f2
    g0 • c0 + g1 • c1 + g2 • c2

/-- The comparison `‖v‖ ≤ t` (`d <= dist_thr` in the source, where `d` is the
length returned by `find_mic`), encoded rationally via the squared norm. -/
def distLe (v : Vec3 ℚ) (t : ℚ) : Bool := decide (0 ≤ t ∧ Vec3.normSq v ≤ t * t)

/-- Site label: the source encodes the site kind and its contributing atom
indices in the label string (`f"Top_{idx}"`, `f"Bridge_{idx1}_{idx2}"`,
`f"Hollow_{idx1}_{idx2}_{idx3}"`); this inductive is that encoding. -/
inductive SiteLabel where
  | top (i : ℕ)
  | bridge (i j : ℕ)
  | hollow (i j k : ℕ)
deriving DecidableEq, Repr

/-- The ordered pairs `(surface_atoms[i], surface_atoms[j])` with `i < j`,
in the enumeration order of the source's nested `Bridge` loops. -/
def pairsOf : List ℕ → List (ℕ × ℕ)
  | [] => []
  | x :: xs => xs.map (fun y => (x, y)) ++ pairsOf xs

/-- The ordered triples of list positions `i < j < k`, in the enumeration
order of the source's nested `Hollow` loops. -/
def triplesOf : List ℕ → List (ℕ × ℕ × ℕ)
  | [] => []
  | x :: xs => (pairsOf xs).map (fun yz => (x, yz.1, yz.2)) ++ triplesOf xs

/-- `generate_adsorption_sites(slab, surface_atoms, ads_dist, dist_thr, margin)`:
top sites above each surface atom, bridge sites at minimum-image midpoints of
pairs within `dist_thr`, hollow sites at minimum-image centroids of triples
pairwise within `dist_thr`, each lifted by `ads_dist·ẑ` and kept only when its
z exceeds the contributing atoms' maximal z plus `margin`. -/
def generate_adsorption_sites (s : Slab ℚ) (surface_atoms : List ℕ)
    (ads_dist dist_thr margin : ℚ) : List (SiteLabel × Vec3 ℚ) :=
  let pos := s.posD
  let tops := surface_atoms.filterMap (fun idx =>
    let bz := (pos idx).z
    let site := pos idx + ads_dist • Vec3.zhat
    if site.z > bz + margin then some (SiteLabel.top idx, site) else none)
  let bridges := (pairsOf surface_atoms).filterMap (fun ij =>
    let idx1 := ij.1
    let idx2 := ij.2
    let vec := find_mic (pos idx2 - pos idx1) s.cell0 s.cell1 s.cell2 s.pbc0 s.pbc1 s.pbc2
    if distLe vec dist_thr then
      let midpoint := pos idx1 + (1/2 : ℚ) • vec
      let site := midpoint + ads_dist • Vec3.zhat
      if site.z > max (pos idx1).z (pos idx2).z + margin then
        some (SiteLabel.bridge idx1 idx2, site)
      else none
    else none)
  let hollows := (triplesOf surface_atoms).filterMap (fun ijk =>
    let idx1 := ijk.1
    let idx2 := ijk.2.1
    let idx3 := ijk.2.2
    let v12 := find_mic (pos idx2 - pos idx1) s.cell0 s.cell1 s.cell2 s.pbc0 s.pbc1 s.pbc2
    let v13 := find_mic (pos idx3 - pos idx1) s.cell0 s.cell1 s.cell2 s.pbc0 s.pbc1 s.pbc2
    let v23 := find_mic (pos idx3 - pos idx2) s.cell0 s.cell1 s.cell2 s.pbc0 s.pbc1 s.pbc2
    if distLe v12 dist_thr && distLe v13 dist_thr && distLe v23 dist_thr then
      let centroid := pos idx1 + (1/3 : ℚ) • (v12 + v13)
      let site := centroid + ads_dist • Vec3.zhat
      if site.z > max (pos idx1).z (max (pos idx2).z (pos idx3).z) + margin then
        some (SiteLabel.hollow idx1 idx2 idx3, site)
      else none
    else none)
  tops ++ bridges ++ hollows

/-- Errors surfaced by the surface-selection stage: `np.percentile` raises
`ValueError` when the requested percentile is outside `[0, 100]`, and
`scipy.spatial.ConvexHull` raises `QhullError` ("input is less than
2-dimensional") when the projected point set is degenerate — all points
collinear, which subsumes fewer than 3 distinct points. -/
inductive ConfigError where
  | invalidPercentile
  | qhullDegenerate
deriving DecidableEq, Repr

/-- `np.percentile(zs, q)` with the default linear interpolation between order
statistics: on the ascending sort `s` of `zs`, with rank `h = q·(n-1)/100`,
returns `s[⌊h⌋] + (h - ⌊h⌋)·(s[⌊h⌋+1] - s[⌊h⌋])` (the top order statistic when
`⌊h⌋` is the last index). -/
def percentileLinear (zs : List ℚ) (q : ℚ) : ℚ :=
  let s := zs.mergeSort (fun a b => decide (a ≤ b))
  let n := s.length
  let h : ℚ := q * ((n : ℚ) - 1) / 100
  let i : ℕ := (⌊h⌋).toNat
  let lo := s.getD i 0
  let hi := s.getD (i + 1) lo
  lo + (h - (i : ℚ)) * (hi - lo)

/-- The candidate surface atoms: `cand = np.where(zs >= z_th)[0]`, the
ascending list of atom indices whose z-coordinate is at least the
`percentile`-th percentile of all z-coordinates. -/
def candidates (s : Slab ℚ) (percentile : ℚ) : List ℕ :=
  let zs := s.zList
  let zth := percentileLinear zs percentile
  (List.range zs.length).filter (fun i => decide (zth ≤ zs.getD i 0))

/-- An indexed planar point `(atom index, x, y)`, the projection the hull is
computed on. -/
abbrev HullPt : Type := ℕ × ℚ × ℚ

/-- Orientation test: z-component of the 2D cross product of `a - o` and
`b - o`. -/
def crossO (o a b : HullPt) : ℚ :=
  (a.2.1 - o.2.1) * (b.2.2 - o.2.2) - (a.2.2 - o.2.2) * (b.2.1 - o.2.1)

/-- One step of the monotone-chain hull construction: push `p`, popping
points that make a non-left turn. -/
def addPoint (p : HullPt) : List HullPt → List HullPt
  | b :: a :: rest => if crossO a b p ≤ 0 then addPoint p (a :: rest) else p :: b :: a :: rest
  | l => p :: l

/-- Fold the chain construction over a point list (the accumulator holds the
chain in reverse). -/
def chainFold (pts : List HullPt) : List HullPt :=
  pts.foldl (fun acc p => addPoint p acc) []

/-- Lexicographic comparison of the planar coordinates. -/
def hullPtLe (a b : HullPt) : Bool :=
  decide (a.2.1 < b.2.1 ∨ (a.2.1 = b.2.1 ∧ a.2.2 ≤ b.2.2))

/-- Model of the vertex output of `scipy.spatial.ConvexHull` on a
non-degenerate 2D point set (Andrew's monotone chain): the vertices of the
convex hull of the input points, each carrying the atom index it came from.
The degenerate input on which scipy raises `QhullError` instead of returning
is screened off by the caller (see `collinearPts` and
`identify_surface_atoms_via_hull`). -/
def hull2D (pts : List HullPt) : List HullPt :=
  let s := pts.mergeSort hullPtLe
  (chainFold s).reverse.dropLast ++ (chainFold s.reverse).reverse.dropLast

/-- Degeneracy of the hull input, exactly the condition under which
`scipy.spatial.ConvexHull` raises `QhullError` on 2D input: the projected
points are all collinear (every triple has zero orientation; this also covers
duplicate projections leaving fewer than 3 distinct points). -/
def collinearPts (pts : List HullPt) : Bool :=
  pts.all (fun p => pts.all (fun q => pts.all (fun r => decide (crossO p q r = 0))))

/-- `identify_surface_atoms_via_hull(slab, percentile)`: the percentile
threshold and candidate screening, the `len(cand) < 3` degenerate fallback
(return the candidates unchanged, with a logged warning), and otherwise the
candidates sitting on the 2D convex hull of the candidates' xy-projection,
`cand[hull.vertices]`.  The out-of-range percentile error raised by
`np.percentile`, and the `QhullError` raised by `ConvexHull` when the
candidates' xy-projection is degenerate (all collinear) — an exception the
source does not catch — are surfaced as `Except.error`. -/
def identify_surface_atoms_via_hull (s : Slab ℚ) (percentile : ℚ) :
    Except ConfigError (List ℕ) :=
  if percentile < 0 ∨ 100 < percentile then .error .invalidPercentile
  else if (candidates s percentile).length < 3 then .ok (candidates s percentile)
  else if collinearPts ((candidates s percentile).map
    (fun i => (i, (s.posD i).x, (s.posD i).y))) then .error .qhullDegenerate
  else .ok ((hull2D ((candidates s percentile).map
    (fun i => (i, (s.posD i).x, (s.posD i).y)))).map (·.1))

/-- The per-slab core pipeline of `main` downstream of alignment: surface
selection followed by site generation (`main` additionally skips writing when
the surface list is empty; the site list it would produce is the same). -/
def core_run (s : Slab ℚ) (percentile ads_dist dist_thr margin : ℚ) :
    Except ConfigError (List (SiteLabel × Vec3 ℚ)) :=
  (identify_surface_atoms_via_hull s percentile).map
    (fun surf => generate_adsorption_sites s surf ads_dist dist_thr margin)

/-- The structure-building part of `add_adsorbate_and_write`: copy the slab
and append one `Atom(ads, position=position)` (the subsequent `.vasp` file
write is external I/O outside the geometric core). -/
def add_adsorbate (s : Slab ℚ) (ads : String) (position : Vec3 ℚ) : Slab ℚ :=
  { s with atoms := s.atoms ++ [⟨ads, position⟩] }

/-- The minimum-image displacement `find_mic(pos[j] - pos[i], cell, pbc)`
the source computes for a pair of atom indices. -/
def micDisp (s : Slab ℚ) (i j : ℕ) : Vec3 ℚ :=
  find_mic (s.posD j - s.posD i) s.cell0 s.cell1 s.cell2 s.pbc0 s.pbc1 s.pbc2

theorem top_mem_eq {s : Slab ℚ} {surf : List ℕ} {a t m : ℚ} {i : ℕ} {site : Vec3 ℚ}
    (h : (SiteLabel.top i, site) ∈ generate_adsorption_sites s surf a t m) :
    site = s.posD i + a • Vec3.zhat := by
  simp only [generate_adsorption_sites, List.mem_append, List.mem_filterMap] at h
  rcases h with (⟨idx, _, hf⟩ | ⟨ij, _, hf⟩) | ⟨ijk, _, hf⟩
  · simp only [Option.ite_none_right_eq_some, Option.some.injEq, Prod.mk.injEq,
      SiteLabel.top.injEq] at hf
    obtain ⟨-, rfl, rfl⟩ := hf
    rfl
  · simp only [Option.ite_none_right_eq_some, Option.some.injEq, Prod.mk.injEq,
      reduceCtorEq, false_and, and_false] at hf
  · simp only [Option.ite_none_right_eq_some, Option.some.injEq, Prod.mk.injEq,
      reduceCtorEq, false_and, and_false] at hf

theorem bridge_mem_eq {s : Slab ℚ} {surf : List ℕ} {a t m : ℚ} {i j : ℕ} {site : Vec3 ℚ}
    (h : (SiteLabel.bridge i j, site) ∈ generate_adsorption_sites s surf a t m) :
    site = s.posD i + (1/2 : ℚ) • micDisp s i j + a • Vec3.zhat
      ∧ distLe (micDisp s i j) t = true := by
  simp only [generate_adsorption_sites, List.mem_append, List.mem_filterMap] at h
  rcases h with (⟨idx, _, hf⟩ | ⟨ij, _, hf⟩) | ⟨ijk, _, hf⟩
  · simp only [Option.ite_none_right_eq_some, Option.some.injEq, Prod.mk.injEq,
      reduceCtorEq, false_and, and_false] at hf
  · simp only [Option.ite_none_right_eq_some, Option.some.injEq, Prod.mk.injEq,
      SiteLabel.bridge.injEq] at hf
    obtain ⟨hgate, -, ⟨rfl, rfl⟩, rfl⟩ := hf
    exact ⟨rfl, hgate⟩
  · simp only [Option.ite_none_right_eq_some, Option.some.injEq, Prod.mk.injEq,
      reduceCtorEq, false_and, and_false] at hf

theorem hollow_mem_gate {s : Slab ℚ} {surf : List ℕ} {a t m : ℚ} {i j k : ℕ} {site : Vec3 ℚ}
    (h : (SiteLabel.hollow i j k, site) ∈ generate_adsorption_sites s surf a t m) :
    distLe (micDisp s i j) t = true ∧ distLe (micDisp s i k) t = true
      ∧ distLe (micDisp s j k) t = true := by
  simp only [generate_adsorption_sites, List.mem_append, List.mem_filterMap] at h
  rcases h with (⟨idx, _, hf⟩ | ⟨ij, _, hf⟩) | ⟨ijk, _, hf⟩
  · simp only [Option.ite_none_right_eq_some, Option.some.injEq, Prod.mk.injEq,
      reduceCtorEq, false_and, and_false] at hf
  · simp only [Option.ite_none_right_eq_some, Option.some.injEq, Prod.mk.injEq,
      reduceCtorEq, false_and, and_false] at hf
  · simp only [Option.ite_none_right_eq_some, Option.some.injEq, Prod.mk.injEq,
      SiteLabel.hollow.injEq, Bool.and_eq_true] at hf
    obtain ⟨⟨⟨h12, h13⟩, h23⟩, -, ⟨rfl, rfl, rfl⟩, rfl⟩ := hf
    exact ⟨h12, h13, h23⟩

theorem Vec3.ext3 {α : Type} {a b : Vec3 α} (hx : a.x = b.x) (hy : a.y = b.y)
    (hz : a.z = b.z) : a = b := by
  cases a; cases b; simp_all

/-- A single atom at the origin in a 10 Å cube. -/
def slabSingle : Slab ℚ :=
  { atoms := [⟨"Pt", ⟨0, 0, 0⟩⟩],
    cell0 := ⟨10, 0, 0⟩, cell1 := ⟨0, 10, 0⟩, cell2 := ⟨0, 0, 10⟩,
    pbc0 := true, pbc1 := true, pbc2 := true }

/-- Two atoms straddling the periodic x-boundary of a 10 Å cube: their direct
separation is 9 Å but their minimum-image separation is 1 Å. -/
def slabPeriodicPair : Slab ℚ :=
  { atoms := [⟨"Pt", ⟨1/2, 0, 0⟩⟩, ⟨"Pt", ⟨19/2, 0, 0⟩⟩],
    cell0 := ⟨10, 0, 0⟩, cell1 := ⟨0, 10, 0⟩, cell2 := ⟨0, 0, 10⟩,
    pbc0 := true, pbc1 := true, pbc2 := true }

/-- Three atoms forming a triangle with pairwise distances 2, √2, √2 Å. -/
def slabTriangle : Slab ℚ :=
  { atoms := [⟨"Pt", ⟨0, 0, 0⟩⟩, ⟨"Pt", ⟨2, 0, 0⟩⟩, ⟨"Pt", ⟨1, 1, 0⟩⟩],
    cell0 := ⟨10, 0, 0⟩, cell1 := ⟨0, 10, 0⟩, cell2 := ⟨0, 0, 10⟩,
    pbc0 := true, pbc1 := true, pbc2 := true }

/-- Claim C6: every generated Top site with source atom `i` satisfies
`site.z - pos[i].z = adsDist` exactly, and its x and y coordinates equal
`pos[i]`'s. -/
theorem top_site_height_law (s : Slab ℚ) (surf : List ℕ) (a t m : ℚ) (i : ℕ)
    (site : Vec3 ℚ) (h : (SiteLabel.top i, site) ∈ generate_adsorption_sites s surf a t m) :
    site.z - (s.posD i).z = a ∧ site.x = (s.posD i).x ∧ site.y = (s.posD i).y := by
  obtain rfl := top_mem_eq h
  refine ⟨?_, ?_, ?_⟩ <;> simp [Vec3.zhat]

theorem top_site_height_law_witness :
    ((⟨0, 0, 9/5⟩ : Vec3 ℚ).z - (slabSingle.posD 0).z = 9/5)
    ∧ ((⟨0, 0, 9/5⟩ : Vec3 ℚ).x = (slabSingle.posD 0).x)
    ∧ ((⟨0, 0, 9/5⟩ : Vec3 ℚ).y = (slabSingle.posD 0).y) :=
  top_site_height_law slabSingle [0] (9/5) 3 (1/5) 0 ⟨0, 0, 9/5⟩ (by decide)

/-- Claim C3: every generated Bridge site from surface atoms `i` and `j` equals
`pos[i]` plus half the minimum-image displacement from `i` to `j` plus
`adsDist·ẑ`; and when the minimum-image and direct displacements have different
lengths, the Bridge site differs from the naive Cartesian midpoint lifted by
`adsDist·ẑ`. -/
theorem bridge_site_minimum_image (s : Slab ℚ) (surf : List ℕ) (a t m : ℚ) (i j : ℕ)
    (site : Vec3 ℚ)
    (h : (SiteLabel.bridge i j, site) ∈ generate_adsorption_sites s surf a t m) :
    site = s.posD i + (1/2 : ℚ) • micDisp s i j + a • Vec3.zhat
    ∧ (Vec3.normSq (micDisp s i j) ≠ Vec3.normSq (s.posD j - s.posD i) →
        site ≠ (1/2 : ℚ) • (s.posD i + s.posD j) + a • Vec3.zhat) := by
  obtain ⟨rfl, -⟩ := bridge_mem_eq h
  refine ⟨rfl, fun hne heq => hne ?_⟩
  have hx := congrArg Vec3.x heq
  have hy := congrArg Vec3.y heq
  have hz := congrArg Vec3.z heq
  simp only [Vec3.add_def, Vec3.smul_def, Vec3.sub_def, Vec3.zhat_def] at hx hy hz
  have hmic : micDisp s i j = s.posD j - s.posD i := by
    refine Vec3.ext3 ?_ ?_ ?_ <;> simp only [Vec3.sub_def] <;> linarith
  rw [hmic]

theorem bridge_site_minimum_image_witness :
    ((⟨0, 0, 9/5⟩ : Vec3 ℚ)
        = slabPeriodicPair.posD 0 + (1/2 : ℚ) • micDisp slabPeriodicPair 0 1
            + (9/5 : ℚ) • Vec3.zhat)
    ∧ ((⟨0, 0, 9/5⟩ : Vec3 ℚ)
        ≠ (1/2 : ℚ) • (slabPeriodicPair.posD 0 + slabPeriodicPair.posD 1)
            + (9/5 : ℚ) • Vec3.zhat) := by
  have h := bridge_site_minimum_image slabPeriodicPair [0, 1] (9/5) 3 (1/5) 0 1
    ⟨0, 0, 9/5⟩ (by decide)
  exact ⟨h.1, h.2 (by decide)⟩

/-- Claim C7: no Bridge site is emitted for a pair whose minimum-image distance
exceeds `distThr`, and no Hollow site is emitted when any of the three pairwise
minimum-image distances exceeds `distThr` (every emitted site passed the
`d ≤ distThr` gates). -/
theorem distance_gating (s : Slab ℚ) (surf : List ℕ) (a t m : ℚ) :
    (∀ i j site, (SiteLabel.bridge i j, site) ∈ generate_adsorption_sites s surf a t m →
      distLe (micDisp s i j) t = true)
    ∧ (∀ i j k site, (SiteLabel.hollow i j k, site) ∈ generate_adsorption_sites s surf a t m →
      distLe (micDisp s i j) t = true ∧ distLe (micDisp s i k) t = true
        ∧ distLe (micDisp s j k) t = true) :=
  ⟨fun _ _ _ h => (bridge_mem_eq h).2, fun _ _ _ _ h => hollow_mem_gate h⟩

theorem distance_gating_witness :
    distLe (micDisp slabTriangle 0 1) 3 = true
    ∧ (distLe (micDisp slabTriangle 0 1) 3 = true
        ∧ distLe (micDisp slabTriangle 0 2) 3 = true
        ∧ distLe (micDisp slabTriangle 1 2) 3 = true) :=
  ⟨(distance_gating slabTriangle [0, 1, 2] (9/5) 3 (1/5)).1 0 1 ⟨1, 0, 9/5⟩ (by decide),
   (distance_gating slabTriangle [0, 1, 2] (9/5) 3 (1/5)).2 0 1 2 ⟨1, 1/3, 9/5⟩ (by decide)⟩

/-- Claim C9: `placeAdsorbate` returns the input structure plus exactly one
appended atom of the given element at the site's position, leaving the cell
and periodicity (and, the source working on `slab.copy()`, the input slab
itself) unchanged. -/
theorem add_adsorbate_spec (s : Slab ℚ) (ads : String) (position : Vec3 ℚ) :
    (add_adsorbate s ads position).atoms = s.atoms ++ [⟨ads, position⟩]
    ∧ (add_adsorbate s ads position).cell0 = s.cell0
    ∧ (add_adsorbate s ads position).cell1 = s.cell1
    ∧ (add_adsorbate s ads position).cell2 = s.cell2
    ∧ (add_adsorbate s ads position).pbc0 = s.pbc0
    ∧ (add_adsorbate s ads position).pbc1 = s.pbc1
    ∧ (add_adsorbate s ads position).pbc2 = s.pbc2 :=
  ⟨rfl, rfl, rfl, rfl, rfl, rfl, rfl⟩

/-- Claim C2, counterexample: a configuration with non-positive `adsDist`
(`-1`) is not rejected — the core runs to completion and returns a normal
(here empty) result instead of surfacing an `InvalidConfiguration` error. -/
theorem invalid_ads_dist_not_rejected :
    core_run slabSingle 70 (-1) 3 (1/5) = Except.ok [] := by decide

/-- Claim C2 as amended: only an out-of-range percentile is rejected (by the
percentile routine, before any result is produced); non-positive `adsDist` and
negative `distThr`/`margin` are not validated and the pipeline proceeds with
them. -/
theorem out_of_range_percentile_rejected (s : Slab ℚ) (p a t m : ℚ)
    (h : p < 0 ∨ 100 < p) :
    core_run s p a t m = Except.error ConfigError.invalidPercentile := by
  unfold core_run identify_surface_atoms_via_hull
  rw [if_pos h]
  rfl

theorem out_of_range_percentile_rejected_witness :
    ((101 : ℚ) < 0 ∨ (100 : ℚ) < 101)
    ∧ core_run slabSingle 101 (9/5) 3 (1/5) = Except.error ConfigError.invalidPercentile :=
  ⟨Or.inr (by norm_num),
   out_of_range_percentile_rejected slabSingle 101 (9/5) 3 (1/5) (Or.inr (by norm_num))⟩

/-- Claim C4: with fewer than 3 candidate atoms no hull is computed — the raw
candidate index list is returned unchanged as a successful result (the warning
the source logs is a diagnostic outside the functional contract, not a
failure). -/
theorem degenerate_fallback (s : Slab ℚ) (p : ℚ) (h0 : 0 ≤ p) (h1 : p ≤ 100)
    (hlt : (candidates s p).length < 3) :
    identify_surface_atoms_via_hull s p = Except.ok (candidates s p) := by
  have hno : ¬(p < 0 ∨ 100 < p) := by push_neg; exact ⟨h0, h1⟩
  simp [identify_surface_atoms_via_hull, hno, hlt]

theorem degenerate_fallback_witness :
    identify_surface_atoms_via_hull slabSingle 70 = Except.ok (candidates slabSingle 70) :=
  degenerate_fallback slabSingle 70 (by norm_num) (by norm_num) (by decide)

theorem addPoint_mem {p : HullPt} :
    ∀ (l : List HullPt), ∀ q ∈ addPoint p l, q = p ∨ q ∈ l
  | [] => by simp [addPoint]
  | [a] => by simp [addPoint]
  | b :: a :: rest => by
    intro q hq
    simp only [addPoint] at hq
    split at hq
    · rcases addPoint_mem (a :: rest) q hq with h | h
      · exact Or.inl h
      · exact Or.inr (List.mem_cons_of_mem _ h)
    · rcases List.mem_cons.mp hq with h | h
      · exact Or.inl h
      · exact Or.inr h

theorem chain_step_mem :
    ∀ (pts acc : List HullPt) (q : HullPt),
      q ∈ pts.foldl (fun acc p => addPoint p acc) acc → q ∈ acc ∨ q ∈ pts
  | [], _, _ => fun h => Or.inl h
  | p :: pts, acc, q => fun h => by
    rcases chain_step_mem pts (addPoint p acc) q h with h' | h'
    · rcases addPoint_mem acc q h' with h'' | h''
      · exact Or.inr (h'' ▸ List.mem_cons_self p pts)
      · exact Or.inl h''
    · exact Or.inr (List.mem_cons_of_mem _ h')

theorem chainFold_mem {pts : List HullPt} {q : HullPt} (h : q ∈ chainFold pts) :
    q ∈ pts := by
  rcases chain_step_mem pts [] q h with h' | h'
  · simp at h'
  · exact h'

theorem hull2D_mem {pts : List HullPt} {q : HullPt} (h : q ∈ hull2D pts) : q ∈ pts := by
  simp only [hull2D] at h
  rcases List.mem_append.mp h with h' | h'
  · have h1 := (List.dropLast_sublist _).subset h'
    have h2 := List.mem_reverse.mp h1
    exact List.mem_mergeSort.mp (chainFold_mem h2)
  · have h1 := (List.dropLast_sublist _).subset h'
    have h2 := List.mem_reverse.mp h1
    exact List.mem_mergeSort.mp (List.mem_reverse.mp (chainFold_mem h2))

theorem addPoint_length {p : HullPt} :
    ∀ (l : List HullPt), l ≠ [] → 2 ≤ (addPoint p l).length
  | [] => fun h => absurd rfl h
  | [a] => fun _ => by simp [addPoint]
  | b :: a :: rest => fun _ => by
    simp only [addPoint]
    split
    · exact addPoint_length (a :: rest) (by simp)
    · simp

theorem chain_step_length :
    ∀ (pts acc : List HullPt), 2 ≤ acc.length →
      2 ≤ (pts.foldl (fun acc p => addPoint p acc) acc).length
  | [], _ => fun h => h
  | p :: pts, acc => fun h =>
    chain_step_length pts (addPoint p acc)
      (addPoint_length acc (fun he => by simp [he] at h))

theorem chainFold_length : ∀ {pts : List HullPt}, 2 ≤ pts.length →
    2 ≤ (chainFold pts).length := by
  intro pts h
  match pts, h with
  | x :: y :: rest, _ =>
    show 2 ≤ (rest.foldl (fun acc p => addPoint p acc) (addPoint y (addPoint x []))).length
    exact chain_step_length rest _ (addPoint_length [x] (by simp))

theorem hull2D_ne_nil {pts : List HullPt} (h : 3 ≤ pts.length) : hull2D pts ≠ [] := by
  have hs : 2 ≤ (pts.mergeSort hullPtLe).length := by
    simp only [List.length_mergeSort]
    omega
  have h1 : 2 ≤ (chainFold (pts.mergeSort hullPtLe)).length := chainFold_length hs
  intro hcontra
  simp only [hull2D] at hcontra
  have h2 := (List.append_eq_nil.mp hcontra).1
  have h3 := congrArg List.length h2
  simp only [List.length_dropLast, List.length_reverse, List.length_nil] at h3
  omega

/-- Four atoms at the corners of a unit square at z = 0. -/
def slabSquare : Slab ℚ :=
  { atoms := [⟨"Pt", ⟨0, 0, 0⟩⟩, ⟨"Pt", ⟨1, 0, 0⟩⟩, ⟨"Pt", ⟨1, 1, 0⟩⟩, ⟨"Pt", ⟨0, 1, 0⟩⟩],
    cell0 := ⟨10, 0, 0⟩, cell1 := ⟨0, 10, 0⟩, cell2 := ⟨0, 0, 10⟩,
    pbc0 := true, pbc1 := true, pbc2 := true }

/-- Claim C5: whatever `identify_surface_atoms_via_hull` returns is a subset of
the candidate set, which in turn is a subset of the slab's atom indices. -/
theorem surface_subset_candidates (s : Slab ℚ) (p : ℚ) (surf : List ℕ)
    (h : identify_surface_atoms_via_hull s p = Except.ok surf) :
    (∀ i ∈ surf, i ∈ candidates s p)
    ∧ (∀ i ∈ candidates s p, i < s.atoms.length) := by
  constructor
  · intro i hi
    unfold identify_surface_atoms_via_hull at h
    split at h
    · exact absurd h (by simp)
    · split at h
      · injection h with h
        exact h ▸ hi
      · split at h
        · exact absurd h (by simp)
        · injection h with h
          subst h
          rcases List.mem_map.mp hi with ⟨q, hq, rfl⟩
          rcases List.mem_map.mp (hull2D_mem hq) with ⟨c, hc, hceq⟩
          rw [← hceq]
          exact hc
  · intro i hi
    have h1 := (List.mem_filter.mp hi).1
    have h2 := List.mem_range.mp h1
    simpa [Slab.zList, Slab.positions] using h2

theorem surface_subset_candidates_witness :
    (∀ i ∈ [0, 1, 2, 3], i ∈ candidates slabSquare 0)
    ∧ (∀ i ∈ candidates slabSquare 0, i < slabSquare.atoms.length) :=
  surface_subset_candidates slabSquare 0 [0, 1, 2, 3] (by decide)

theorem exists_max_mem :
    ∀ (l : List ℚ), l ≠ [] → ∃ m, m ∈ l ∧ ∀ x ∈ l, x ≤ m
  | [], h => absurd rfl h
  | a :: l, _ => by
    match l with
    | [] => exact ⟨a, by simp⟩
    | b :: l' =>
      obtain ⟨m, hm, hmax⟩ := exists_max_mem (b :: l') (by simp)
      refine ⟨max a m, ?_, ?_⟩
      · rcases le_total a m with hc | hc
        · rw [max_eq_right hc]
          exact List.mem_cons_of_mem _ hm
        · rw [max_eq_left hc]
          exact List.mem_cons_self _ _
      · intro x hx
        rcases List.mem_cons.mp hx with rfl | hx'
        · exact le_max_left _ _
        · exact le_trans (hmax x hx') (le_max_right _ _)

theorem getD_mem_of_lt {l : List ℚ} {i : ℕ} (h : i < l.length) (d : ℚ) :
    l.getD i d ∈ l := by
  rw [List.getD_eq_getElem?_getD, List.getElem?_eq_getElem h]
  exact List.getElem_mem h

/-- The linearly interpolated percentile never exceeds the maximum of the
data: it is a convex combination of two order statistics. -/
theorem percentileLinear_le_max (zs : List ℚ) (q : ℚ) (m : ℚ) (hne : zs ≠ [])
    (h0 : 0 ≤ q) (h1 : q ≤ 100) (hm : ∀ x ∈ zs, x ≤ m) :
    percentileLinear zs q ≤ m := by
  unfold percentileLinear
  have hmemst : ∀ x ∈ zs.mergeSort (fun a b => decide (a ≤ b)), x ≤ m :=
    fun x hx => hm x (List.mem_mergeSort.mp hx)
  have hnz : zs.mergeSort (fun a b => decide (a ≤ b)) ≠ [] := by
    intro hc
    exact hne (by simpa using congrArg List.length hc)
  have hn1 : 1 ≤ (zs.mergeSort (fun a b => decide (a ≤ b))).length :=
    List.length_pos.mpr hnz
  set st := zs.mergeSort (fun a b => decide (a ≤ b)) with hst
  set n := st.length with hn
  set hq : ℚ := q * ((n : ℚ) - 1) / 100 with hhq
  have hq0 : 0 ≤ hq := by
    have : (1 : ℚ) ≤ (n : ℚ) := by exact_mod_cast hn1
    have h2 : 0 ≤ (n : ℚ) - 1 := by linarith
    positivity
  have hqle : hq ≤ (n : ℚ) - 1 := by
    have hc1 : (1 : ℚ) ≤ (n : ℚ) := by exact_mod_cast hn1
    rw [hhq, div_le_iff₀ (by norm_num : (0:ℚ) < 100)]
    nlinarith
  have hfl0 : 0 ≤ ⌊hq⌋ := Int.floor_nonneg.mpr hq0
  set i : ℕ := (⌊hq⌋).toNat with hi
  have hicast : (i : ℚ) = (⌊hq⌋ : ℚ) := by
    rw [hi]
    exact_mod_cast congrArg (fun k : ℤ => (k : ℚ)) (Int.toNat_of_nonneg hfl0)
  have hile : (i : ℚ) ≤ (n : ℚ) - 1 := by
    rw [hicast]
    exact le_trans (Int.floor_le hq) hqle
  have hilt : i < n := by
    have : (i : ℚ) < (n : ℚ) := by linarith
    exact_mod_cast this
  have hg0 : 0 ≤ hq - (i : ℚ) := by
    rw [hicast]
    exact sub_nonneg.mpr (Int.floor_le hq)
  have hg1 : hq - (i : ℚ) < 1 := by
    rw [hicast]
    have := Int.lt_floor_add_one hq
    linarith
  have hlom : st.getD i 0 ≤ m := hmemst _ (getD_mem_of_lt hilt 0)
  have hhim : st.getD (i + 1) (st.getD i 0) ≤ m := by
    by_cases hc : i + 1 < n
    · exact hmemst _ (getD_mem_of_lt hc _)
    · rw [List.getD_eq_getElem?_getD, List.getElem?_eq_none (by omega), Option.getD_none]
      exact hlom
  rcases le_total (st.getD i 0) (st.getD (i + 1) (st.getD i 0)) with hcmp | hcmp
  · nlinarith
  · nlinarith

/-- Three atoms in a row at z = 0: at an in-range percentile all three are
candidates and their xy-projections are collinear. -/
def slabCollinear : Slab ℚ :=
  { atoms := [⟨"Pt", ⟨0, 0, 0⟩⟩, ⟨"Pt", ⟨1, 0, 0⟩⟩, ⟨"Pt", ⟨2, 0, 0⟩⟩],
    cell0 := ⟨10, 0, 0⟩, cell1 := ⟨0, 10, 0⟩, cell2 := ⟨0, 0, 10⟩,
    pbc0 := true, pbc1 := true, pbc2 := true }

/-- Claim C10, counterexample: the surface selector does not always return —
for a non-empty slab (3 atoms) and an in-range percentile (50) whose three
candidates project onto one line, the hull routine raises (`QhullError`,
uncaught by the source) instead of returning an index sequence. -/
theorem qhull_degenerate_raises :
    identify_surface_atoms_via_hull slabCollinear 50
      = Except.error ConfigError.qhullDegenerate := by decide

/-- Claim C10 as amended: for a non-empty slab and an in-range percentile the
candidate set is always non-empty (the atom of maximal z passes the threshold,
the interpolated percentile never exceeding the maximum), and whenever the
surface selector does return — the hull routine not having raised on a
degenerate collinear projection — the returned index sequence is non-empty,
so the caller's empty-surface branch is unreachable. -/
theorem surface_nonempty_when_ok (s : Slab ℚ) (p : ℚ) (hne : s.atoms ≠ [])
    (h0 : 0 ≤ p) (h1 : p ≤ 100) :
    candidates s p ≠ []
    ∧ ∀ surf, identify_surface_atoms_via_hull s p = Except.ok surf → surf ≠ [] := by
  have hzne : s.zList ≠ [] := by
    intro hc
    apply hne
    have := congrArg List.length hc
    simpa [Slab.zList, Slab.positions] using this
  obtain ⟨m, hmmem, hmax⟩ := exists_max_mem s.zList hzne
  have hth : percentileLinear s.zList p ≤ m :=
    percentileLinear_le_max s.zList p m hzne h0 h1 hmax
  obtain ⟨i0, hi0lt, hi0⟩ := List.mem_iff_getElem.mp hmmem
  have hi0cand : i0 ∈ candidates s p := by
    unfold candidates
    refine List.mem_filter.mpr ⟨List.mem_range.mpr hi0lt, ?_⟩
    have hgd : s.zList.getD i0 0 = m := by
      rw [List.getD_eq_getElem?_getD, List.getElem?_eq_getElem hi0lt, Option.getD_some, hi0]
    simp only [decide_eq_true_eq, hgd]
    exact hth
  have hcne : candidates s p ≠ [] := List.ne_nil_of_mem hi0cand
  refine ⟨hcne, ?_⟩
  intro surf h
  unfold identify_surface_atoms_via_hull at h
  split at h
  · exact absurd h (by simp)
  · split at h
    · injection h with h
      exact h ▸ hcne
    · split at h
      · exact absurd h (by simp)
      · rename_i hrange hlen hcol
        injection h with h
        subst h
        have hpts : 3 ≤ ((candidates s p).map
            (fun i => ((i, (s.posD i).x, (s.posD i).y) : HullPt))).length := by
          rw [List.length_map]
          omega
        intro hc
        exact hull2D_ne_nil hpts (List.map_eq_nil_iff.mp hc)

theorem surface_nonempty_when_ok_witness :
    candidates slabSingle 70 ≠ [] ∧ ([0] : List ℕ) ≠ [] := by
  have h := surface_nonempty_when_ok slabSingle 70 (by decide) (by norm_num) (by norm_num)
  exact ⟨h.1, h.2 [0] (by decide)⟩

/-- `np.linalg.norm` of a 3-vector, over `ℝ`. -/
noncomputable def norm3 (v : Vec3 ℝ) : ℝ := Real.sqrt (Vec3.normSq v)

/-- Sum of a list of vectors. -/
def sumV : List (Vec3 ℝ) → Vec3 ℝ
  | [] => 0
  | v :: l => v + sumV l

/-- Center of mass (`center='COM'` of `ase.Atoms.rotate`): the mass-weighted
mean position, the atomic mass of each element being supplied by the mass
table `mass` (ASE's built-in data, external to this source). -/
noncomputable def com (mass : String → ℝ) (s : Slab ℝ) : Vec3 ℝ :=
  (1 / (s.atoms.map (fun a => mass a.el)).sum) •
    sumV (s.atoms.map (fun a => mass a.el • a.p))

/-- One point rotated by `ase.Atoms.rotate(a, v, center)`: ASE interprets the
angle `a` in degrees (it multiplies by π/180), normalizes the axis `v`, and
applies the Rodrigues rotation about `center`:
`p ↦ cos·q + sin·(v × q) + (1-cos)·(q·v)·v + center` with `q = p - center`. -/
noncomputable def rotPoint (a : ℝ) (v : Vec3 ℝ) (center p : Vec3 ℝ) : Vec3 ℝ :=
  let ar := a * (Real.pi / 180)
  let u := (1 / norm3 v) • v
  let q := p - center
  (Real.cos ar • q) + (Real.sin ar • Vec3.cross u q)
    + (((1 - Real.cos ar) * Vec3.dot q u) • u) + center

/-- The local variable `n` of `align_slab_to_z`: the normalized cell normal
`cross(cell[0], cell[1])`, sign-flipped to non-negative z-component. -/
noncomputable def slabNormal (s : Slab ℝ) : Vec3 ℝ :=
  let n0 := (1 / norm3 (Vec3.cross s.cell0 s.cell1)) • Vec3.cross s.cell0 s.cell1
  if n0.z < 0 then -n0 else n0

/-- The local variable `angle` of `align_slab_to_z`:
`arccos(clip(n · ẑ, -1, 1))`, in radians. -/
noncomputable def slabAngle (s : Slab ℝ) : ℝ :=
  Real.arccos (max (-1 : ℝ) (min 1 (Vec3.dot (slabNormal s) Vec3.zhat)))

/-- The local variable `axis` of `align_slab_to_z`:
`cross(n, ẑ)` normalized. -/
noncomputable def slabAxis (s : Slab ℝ) : Vec3 ℝ :=
  (1 / norm3 (Vec3.cross (slabNormal s) Vec3.zhat)) • Vec3.cross (slabNormal s) Vec3.zhat

/-- `align_slab_to_z(slab)`: when the computed angle exceeds the `1e-6`
tolerance, rotate atoms (about the center of mass) and all three cell vectors
(about the origin, as ASE's `rotate_cell=True` does) by
`slab.rotate(angle, axis, center='COM', rotate_cell=True)` with
`axis = cross(n, ẑ)/‖cross(n, ẑ)‖`; otherwise return the slab unchanged.
Note the source hands `angle` (radians, from `arccos`) to `ase.Atoms.rotate`,
which interprets its angle argument in degrees. -/
noncomputable def align_slab_to_z (mass : String → ℝ) (slab : Slab ℝ) : Slab ℝ :=
  if slabAngle slab > 1e-6 then
    { atoms := slab.atoms.map (fun a0 =>
        ⟨a0.el, rotPoint (slabAngle slab) (slabAxis slab) (com mass slab) a0.p⟩),
      cell0 := rotPoint (slabAngle slab) (slabAxis slab) 0 slab.cell0,
      cell1 := rotPoint (slabAngle slab) (slabAxis slab) 0 slab.cell1,
      cell2 := rotPoint (slabAngle slab) (slabAxis slab) 0 slab.cell2,
      pbc0 := slab.pbc0, pbc1 := slab.pbc1, pbc2 := slab.pbc2 }
  else slab

/-- The unit mass table (the concrete masses are irrelevant to the cell,
which rotates about the origin). -/
def massOne : String → ℝ := fun _ => 1

/-- A slab whose cell normal `cell0 × cell1` points along `-y`: tilted a
quarter turn away from `+z`. -/
def slabTilted : Slab ℝ :=
  { atoms := [⟨"Pt", ⟨0, 0, 0⟩⟩],
    cell0 := ⟨1, 0, 0⟩, cell1 := ⟨0, 0, 1⟩, cell2 := ⟨0, 1, 0⟩,
    pbc0 := true, pbc1 := true, pbc2 := true }

/-- A slab whose cell normal already points along `+z`. -/
def slabAligned : Slab ℝ :=
  { atoms := [⟨"Pt", ⟨0, 0, 0⟩⟩],
    cell0 := ⟨1, 0, 0⟩, cell1 := ⟨0, 1, 0⟩, cell2 := ⟨0, 0, 1⟩,
    pbc0 := true, pbc1 := true, pbc2 := true }

theorem align_eq_of_rot (mass : String → ℝ) (s : Slab ℝ) (h : slabAngle s > 1e-6) :
    align_slab_to_z mass s =
      { atoms := s.atoms.map (fun a0 =>
          ⟨a0.el, rotPoint (slabAngle s) (slabAxis s) (com mass s) a0.p⟩),
        cell0 := rotPoint (slabAngle s) (slabAxis s) 0 s.cell0,
        cell1 := rotPoint (slabAngle s) (slabAxis s) 0 s.cell1,
        cell2 := rotPoint (slabAngle s) (slabAxis s) 0 s.cell2,
        pbc0 := s.pbc0, pbc1 := s.pbc1, pbc2 := s.pbc2 } := by
  unfold align_slab_to_z
  rw [if_pos h]

theorem align_eq_of_norot (mass : String → ℝ) (s : Slab ℝ) (h : ¬ slabAngle s > 1e-6) :
    align_slab_to_z mass s = s := by
  unfold align_slab_to_z
  rw [if_neg h]

theorem norm3_negx : norm3 (⟨-1, 0, 0⟩ : Vec3 ℝ) = 1 := by
  simp [norm3, Vec3.normSq]

theorem rotPoint_negx (a : ℝ) (p : Vec3 ℝ) :
    rotPoint a ⟨-1, 0, 0⟩ 0 p
      = ⟨p.x,
         Real.cos (a * (Real.pi / 180)) * p.y + Real.sin (a * (Real.pi / 180)) * p.z,
         Real.cos (a * (Real.pi / 180)) * p.z - Real.sin (a * (Real.pi / 180)) * p.y⟩ := by
  simp only [rotPoint, norm3_negx]
  refine Vec3.ext3 ?_ ?_ ?_ <;> simp [Vec3.cross, Vec3.dot] <;> ring

theorem slabNormal_tilted : slabNormal slabTilted = ⟨0, -1, 0⟩ := by
  have h1 : Vec3.cross slabTilted.cell0 slabTilted.cell1 = ⟨0, -1, 0⟩ := by
    simp [Vec3.cross, slabTilted]
  have h2 : norm3 (⟨0, -1, 0⟩ : Vec3 ℝ) = 1 := by simp [norm3, Vec3.normSq]
  rw [slabNormal, h1, h2]
  norm_num

theorem slabAngle_tilted : slabAngle slabTilted = Real.pi / 2 := by
  rw [slabAngle, slabNormal_tilted]
  norm_num [Vec3.dot, Real.arccos_zero]

theorem align_tilted_branch : slabAngle slabTilted > 1e-6 := by
  rw [slabAngle_tilted]
  have := Real.pi_gt_three
  norm_num
  linarith

theorem slabAxis_tilted : slabAxis slabTilted = ⟨-1, 0, 0⟩ := by
  have h1 : Vec3.cross (slabNormal slabTilted) Vec3.zhat = ⟨-1, 0, 0⟩ := by
    rw [slabNormal_tilted]
    simp [Vec3.cross]
  rw [slabAxis, h1, norm3_negx]
  norm_num

theorem align_tilted_cells :
    (align_slab_to_z massOne slabTilted).cell0 = ⟨1, 0, 0⟩
    ∧ (align_slab_to_z massOne slabTilted).cell1
        = ⟨0, Real.sin (Real.pi ^ 2 / 360), Real.cos (Real.pi ^ 2 / 360)⟩
    ∧ (align_slab_to_z massOne slabTilted).cell2
        = ⟨0, Real.cos (Real.pi ^ 2 / 360), -Real.sin (Real.pi ^ 2 / 360)⟩ := by
  have har : Real.pi / 2 * (Real.pi / 180) = Real.pi ^ 2 / 360 := by ring
  rw [align_eq_of_rot massOne slabTilted align_tilted_branch]
  refine ⟨?_, ?_, ?_⟩ <;>
    simp only [slabAngle_tilted, slabAxis_tilted, rotPoint_negx, har] <;>
    refine Vec3.ext3 ?_ ?_ ?_ <;>
    simp [slabTilted]

/-- Claim C1 (evaluation at the failing input): for the concrete slab whose
normal points along `-y`, the recomputed normal of the aligned slab's cell is
not parallel to `+z` within any reasonable tolerance: its y-component squared
still exceeds half its squared norm (the rotation applied is only
`(π/2)·(π/180)` radians, because the radian angle is handed to the
degree-interpreting ASE rotate). -/
theorem align_does_not_align :
    (Vec3.cross (align_slab_to_z massOne slabTilted).cell0
        (align_slab_to_z massOne slabTilted).cell1).y ^ 2
      > (1/2) * Vec3.normSq (Vec3.cross (align_slab_to_z massOne slabTilted).cell0
          (align_slab_to_z massOne slabTilted).cell1) := by
  obtain ⟨h0, h1, -⟩ := align_tilted_cells
  rw [h0, h1]
  have hcross : Vec3.cross (⟨1, 0, 0⟩ : Vec3 ℝ)
      ⟨0, Real.sin (Real.pi ^ 2 / 360), Real.cos (Real.pi ^ 2 / 360)⟩
      = ⟨0, -Real.cos (Real.pi ^ 2 / 360), Real.sin (Real.pi ^ 2 / 360)⟩ := by
    refine Vec3.ext3 ?_ ?_ ?_ <;> simp [Vec3.cross]
  rw [hcross]
  have hpyth := Real.sin_sq_add_cos_sq (Real.pi ^ 2 / 360)
  have hlt : Real.pi ^ 2 / 360 < Real.pi / 4 := by
    have h315 := Real.pi_lt_d2
    have hpos := Real.pi_pos
    nlinarith
  have hc : Real.cos (Real.pi / 4) < Real.cos (Real.pi ^ 2 / 360) := by
    refine Real.cos_lt_cos_of_nonneg_of_le_pi (by positivity) ?_ hlt
    linarith [Real.pi_pos]
  rw [Real.cos_pi_div_four] at hc
  have h2 := Real.sq_sqrt (show (0:ℝ) ≤ 2 by norm_num)
  have h2n := Real.sqrt_nonneg 2
  simp only [Vec3.normSq_def]
  nlinarith [hpyth, hc, h2, h2n]

theorem phi1_pos : (0:ℝ) < Real.pi ^ 2 / 360 := by positivity

theorem phi1_lt_one : Real.pi ^ 2 / 360 < 1 := by
  have h := Real.pi_lt_d2
  have hp := Real.pi_pos
  nlinarith

theorem sin_phi1_pos : 0 < Real.sin (Real.pi ^ 2 / 360) := by
  apply Real.sin_pos_of_pos_of_lt_pi phi1_pos
  have := Real.pi_gt_three
  linarith [phi1_lt_one]

theorem cos_phi1_pos : 0 < Real.cos (Real.pi ^ 2 / 360) := by
  apply Real.cos_pos_of_mem_Ioo
  constructor
  · have := Real.pi_pos
    have := phi1_pos
    linarith
  · have := Real.pi_gt_three
    linarith [phi1_lt_one]

theorem slabNormal_second :
    slabNormal (align_slab_to_z massOne slabTilted)
      = ⟨0, -Real.cos (Real.pi ^ 2 / 360), Real.sin (Real.pi ^ 2 / 360)⟩ := by
  obtain ⟨h0, h1, -⟩ := align_tilted_cells
  have hN : Vec3.cross (align_slab_to_z massOne slabTilted).cell0
      (align_slab_to_z massOne slabTilted).cell1
      = ⟨0, -Real.cos (Real.pi ^ 2 / 360), Real.sin (Real.pi ^ 2 / 360)⟩ := by
    rw [h0, h1]
    refine Vec3.ext3 ?_ ?_ ?_ <;> simp [Vec3.cross]
  have hsq : Vec3.normSq (⟨0, -Real.cos (Real.pi ^ 2 / 360),
      Real.sin (Real.pi ^ 2 / 360)⟩ : Vec3 ℝ) = 1 := by
    have := Real.sin_sq_add_cos_sq (Real.pi ^ 2 / 360)
    simp only [Vec3.normSq_def]
    nlinarith
  have hn3 : norm3 ⟨0, -Real.cos (Real.pi ^ 2 / 360), Real.sin (Real.pi ^ 2 / 360)⟩ = 1 := by
    rw [norm3, hsq, Real.sqrt_one]
  rw [slabNormal, hN, hn3]
  rw [if_neg]
  · norm_num
  · simp only [Vec3.smul_def]
    norm_num
    linarith [sin_phi1_pos]

theorem slabAngle_second :
    slabAngle (align_slab_to_z massOne slabTilted)
      = Real.pi / 2 - Real.pi ^ 2 / 360 := by
  rw [slabAngle, slabNormal_second]
  have hs1 : Real.sin (Real.pi ^ 2 / 360) ≤ 1 := Real.sin_le_one _
  have hs0 : (0:ℝ) < Real.sin (Real.pi ^ 2 / 360) := sin_phi1_pos
  have hdot : Vec3.dot (⟨0, -Real.cos (Real.pi ^ 2 / 360),
      Real.sin (Real.pi ^ 2 / 360)⟩ : Vec3 ℝ) Vec3.zhat
      = Real.sin (Real.pi ^ 2 / 360) := by
    simp [Vec3.dot]
  rw [hdot, min_eq_right hs1, max_eq_right (by linarith)]
  rw [Real.arccos_eq_pi_div_two_sub_arcsin]
  rw [Real.arcsin_sin (by linarith [Real.pi_pos, phi1_pos]) (by
    have := Real.pi_gt_three
    linarith [phi1_lt_one])]

theorem align_second_branch :
    slabAngle (align_slab_to_z massOne slabTilted) > 1e-6 := by
  rw [slabAngle_second]
  have h1 := Real.pi_gt_three
  have h2 := phi1_lt_one
  norm_num
  linarith

theorem slabAxis_second :
    slabAxis (align_slab_to_z massOne slabTilted) = ⟨-1, 0, 0⟩ := by
  rw [slabAxis, slabNormal_second]
  have hcr : Vec3.cross (⟨0, -Real.cos (Real.pi ^ 2 / 360),
      Real.sin (Real.pi ^ 2 / 360)⟩ : Vec3 ℝ) Vec3.zhat
      = ⟨-Real.cos (Real.pi ^ 2 / 360), 0, 0⟩ := by
    refine Vec3.ext3 ?_ ?_ ?_ <;> simp [Vec3.cross]
  have hsq : Vec3.normSq (⟨-Real.cos (Real.pi ^ 2 / 360), 0, 0⟩ : Vec3 ℝ)
      = Real.cos (Real.pi ^ 2 / 360) ^ 2 := by
    simp only [Vec3.normSq_def]
    ring
  have hn3 : norm3 ⟨-Real.cos (Real.pi ^ 2 / 360), 0, 0⟩
      = Real.cos (Real.pi ^ 2 / 360) := by
    rw [norm3, hsq, Real.sqrt_sq (le_of_lt cos_phi1_pos)]
  rw [hcr, hn3]
  have hne : Real.cos (Real.pi ^ 2 / 360) ≠ 0 := ne_of_gt cos_phi1_pos
  refine Vec3.ext3 ?_ ?_ ?_ <;> field_simp

theorem align_align_cell1 :
    (align_slab_to_z massOne (align_slab_to_z massOne slabTilted)).cell1
      = ⟨0,
         Real.cos ((Real.pi/2 - Real.pi^2/360) * (Real.pi/180)) * Real.sin (Real.pi^2/360)
           + Real.sin ((Real.pi/2 - Real.pi^2/360) * (Real.pi/180)) * Real.cos (Real.pi^2/360),
         Real.cos ((Real.pi/2 - Real.pi^2/360) * (Real.pi/180)) * Real.cos (Real.pi^2/360)
           - Real.sin ((Real.pi/2 - Real.pi^2/360) * (Real.pi/180)) * Real.sin (Real.pi^2/360)⟩ := by
  rw [align_eq_of_rot massOne _ align_second_branch]
  obtain ⟨-, h1, -⟩ := align_tilted_cells
  show rotPoint _ _ _ _ = _
  rw [slabAngle_second, slabAxis_second, h1, rotPoint_negx]

theorem align_not_idempotent_aux :
    Vec3.normSq ((align_slab_to_z massOne (align_slab_to_z massOne slabTilted)).cell1
      - (align_slab_to_z massOne slabTilted).cell1)
      = 2 - 2 * Real.cos ((Real.pi/2 - Real.pi^2/360) * (Real.pi/180)) := by
  obtain ⟨-, h1, -⟩ := align_tilted_cells
  rw [align_align_cell1, h1]
  have hp1 := Real.sin_sq_add_cos_sq (Real.pi^2/360)
  have hp2 := Real.sin_sq_add_cos_sq ((Real.pi/2 - Real.pi^2/360) * (Real.pi/180))
  simp only [Vec3.sub_def, Vec3.normSq_def]
  linear_combination (Real.sin ((Real.pi/2 - Real.pi^2/360) * (Real.pi/180))^2
      + Real.cos ((Real.pi/2 - Real.pi^2/360) * (Real.pi/180))^2
      - 2 * Real.cos ((Real.pi/2 - Real.pi^2/360) * (Real.pi/180)) + 1) * hp1 + hp2

theorem pi_sq_bounds : (9.8696 : ℝ) < Real.pi ^ 2 ∧ Real.pi ^ 2 < (9.86961 : ℝ) := by
  have hl := Real.pi_gt_d6
  have hu := Real.pi_lt_d6
  constructor <;> nlinarith

theorem pi_cube_bounds : (31.006 : ℝ) < Real.pi ^ 3 ∧ Real.pi ^ 3 < (31.00629 : ℝ) := by
  have hl := Real.pi_gt_d6
  have hu := Real.pi_lt_d6
  have hp := Real.pi_pos
  obtain ⟨h2l, h2u⟩ := pi_sq_bounds
  have hc : Real.pi ^ 3 = Real.pi * Real.pi ^ 2 := by ring
  constructor
  · rw [hc]
    have h1 : (3.141592 : ℝ) * 9.8696 < Real.pi * Real.pi ^ 2 :=
      mul_lt_mul' (le_of_lt hl) h2l (by norm_num) hp
    nlinarith
  · rw [hc]
    have h1 : Real.pi * Real.pi ^ 2 < 3.141593 * 9.86961 :=
      mul_lt_mul hu (le_of_lt h2u) (by positivity) (by norm_num)
    nlinarith

theorem half_phi2_eq :
    (Real.pi/2 - Real.pi^2/360) * (Real.pi/180) / 2
      = Real.pi^2/720 - Real.pi^3/129600 := by ring

theorem half_phi2_bounds :
    (0.013468 : ℝ) < (Real.pi/2 - Real.pi^2/360) * (Real.pi/180) / 2
    ∧ (Real.pi/2 - Real.pi^2/360) * (Real.pi/180) / 2 < (0.013470 : ℝ) := by
  rw [half_phi2_eq]
  obtain ⟨h2l, h2u⟩ := pi_sq_bounds
  obtain ⟨h3l, h3u⟩ := pi_cube_bounds
  constructor <;> nlinarith

theorem sin_half_phi2_lower :
    (0.013467 : ℝ) < Real.sin ((Real.pi/2 - Real.pi^2/360) * (Real.pi/180) / 2) := by
  obtain ⟨htl, htu⟩ := half_phi2_bounds
  have hpos : (0:ℝ) < (Real.pi/2 - Real.pi^2/360) * (Real.pi/180) / 2 := by linarith
  have hle1 : (Real.pi/2 - Real.pi^2/360) * (Real.pi/180) / 2 ≤ 1 := by linarith
  have hs := Real.sin_gt_sub_cube hpos hle1
  have ht3 : ((Real.pi/2 - Real.pi^2/360) * (Real.pi/180) / 2)^3 < (0.013470:ℝ)^3 :=
    pow_lt_pow_left₀ htu (le_of_lt hpos) (by norm_num)
  have hnum : (0.013470:ℝ)^3 < 0.0000025 := by norm_num
  linarith

theorem two_sub_cos_bound :
    2 - 2 * Real.cos ((Real.pi/2 - Real.pi^2/360) * (Real.pi/180)) > 1/2000 := by
  have hhalf : Real.cos ((Real.pi/2 - Real.pi^2/360) * (Real.pi/180))
      = 1 - 2 * Real.sin ((Real.pi/2 - Real.pi^2/360) * (Real.pi/180) / 2)^2 := by
    have hc := Real.cos_sq ((Real.pi/2 - Real.pi^2/360) * (Real.pi/180) / 2)
    rw [show 2 * ((Real.pi/2 - Real.pi^2/360) * (Real.pi/180) / 2)
        = (Real.pi/2 - Real.pi^2/360) * (Real.pi/180) by ring] at hc
    have hp := Real.sin_sq_add_cos_sq ((Real.pi/2 - Real.pi^2/360) * (Real.pi/180) / 2)
    linarith
  rw [hhalf]
  have hl := sin_half_phi2_lower
  nlinarith

/-- Claim C8, counterexample: for the concrete tilted slab, a second
application of `align_slab_to_z` moves the (unit-length) cell vector
`cell[1]` by a squared distance exceeding `1/2000` — far beyond numeric
tolerance, so `align(align(s))` differs from `align(s)`: each pass rotates
by only `angle·π/180` radians, leaving a residual angle the next pass acts
on again. -/
theorem align_not_idempotent :
    Vec3.normSq ((align_slab_to_z massOne (align_slab_to_z massOne slabTilted)).cell1
      - (align_slab_to_z massOne slabTilted).cell1) > 1/2000 := by
  rw [align_not_idempotent_aux]
  exact two_sub_cos_bound

/-- Claim C8 as amended: alignment is idempotent exactly on its no-rotation
branch — when the computed angle is within the `1e-6` tolerance the slab is
returned unchanged, and a second application then changes nothing; otherwise
a second application rotates the slab again (see the counterexample). -/
theorem align_idempotent_when_tolerant (mass : String → ℝ) (s : Slab ℝ)
    (h : ¬ slabAngle s > 1e-6) :
    align_slab_to_z mass s = s
    ∧ align_slab_to_z mass (align_slab_to_z mass s) = align_slab_to_z mass s := by
  have h1 := align_eq_of_norot mass s h
  exact ⟨h1, by rw [h1, h1]⟩

theorem slabAngle_aligned : slabAngle slabAligned = 0 := by
  have h1 : Vec3.cross slabAligned.cell0 slabAligned.cell1 = ⟨0, 0, 1⟩ := by
    refine Vec3.ext3 ?_ ?_ ?_ <;> simp [Vec3.cross, slabAligned]
  have h2 : norm3 (⟨0, 0, 1⟩ : Vec3 ℝ) = 1 := by
    simp [norm3, Vec3.normSq]
  rw [slabAngle, slabNormal, h1, h2]
  norm_num [Vec3.dot, Real.arccos_one]

theorem align_idempotent_when_tolerant_witness :
    (¬ slabAngle slabAligned > 1e-6)
    ∧ (align_slab_to_z massOne slabAligned = slabAligned
       ∧ align_slab_to_z massOne (align_slab_to_z massOne slabAligned)
           = align_slab_to_z massOne slabAligned) := by
  have hc : ¬ slabAngle slabAligned > 1e-6 := by
    rw [slabAngle_aligned]
    norm_num
  exact ⟨hc, align_idempotent_when_tolerant massOne slabAligned hc⟩
